import Mathlib

/-!
LiveTL translator mode: the word index and the text-substitution engine.

A shallow embedding of `src/js/translator-mode.js` (`omniComplete` and
`macroSystem`) together with the properties its specification states.

JavaScript strings are sequences of UTF-16 code units; they are modelled as
lists of natural numbers (one number per code unit).
-/

namespace LiveTL

/-- A JavaScript string: its UTF-16 code units. -/
abbrev JSString := List Nat

/-- Code units of a literal (used for ASCII literals only). -/
def js (s : String) : JSString := s.toList.map Char.toNat

/-! ## String primitives -/

/-- The regular-expression class `\w` (no `u`/`i` flag): `[A-Za-z0-9_]`. -/
def isWordChar (c : Nat) : Bool :=
  (48 ≤ c && c ≤ 57) || (65 ≤ c && c ≤ 90) || c == 95 || (97 ≤ c && c ≤ 122)

/-- The trigger character `/`. -/
def slash : Nat := 47

/-- The regular-expression class `[\w\/]`. -/
def isTokenChar (c : Nat) : Bool := isWordChar c || c == slash

/-- `word.startsWith(wordPortion)`. -/
def startsWith (word wordPortion : JSString) : Bool := wordPortion.isPrefixOf word

/-- `s.substring(start, end)`: both indices are clamped to the length and
swapped when `start > end`. -/
def substring (s : JSString) (start stop : Nat) : JSString :=
  let a := min start s.length
  let b := min stop s.length
  (s.take (max a b)).drop (min a b)

/-- `s.substring(start)`. -/
def substringFrom (s : JSString) (start : Nat) : JSString := s.drop start

/-- The string comparison `x < y` of JavaScript (`IsLessThan` on strings):
a proper prefix is smaller, otherwise the first differing code unit decides. -/
def strLt : JSString → JSString → Bool
  | _, [] => false
  | [], _ :: _ => true
  | a :: as, b :: bs => if a < b then true else if b < a then false else strLt as bs

/-- `SortCompare(x, y) ≤ 0` for strings under the default comparator of
`Array.prototype.sort`: `y` is not smaller than `x`. -/
def strLe (x y : JSString) : Bool := !strLt y x

/-- `Array.prototype.sort()` with the default comparator on an array of
strings; returns the new contents of the receiver.  The comparator is a total
order on strings, so every sorting algorithm yields this same result. -/
def arraySort (a : List JSString) : List JSString :=
  a.insertionSort (fun x y => strLe x y = true)

/-! ## `omniComplete`: the word index -/

/-- Insertion into a JavaScript `Set` of strings (insertion-ordered). -/
def setAdd (s : List JSString) (x : JSString) : List JSString :=
  if x ∈ s then s else s ++ [x]

/-- `new Set(words)`. -/
def newSet (words : List JSString) : List JSString := words.foldl setAdd []

/-- The closure state of `omniComplete`, together with the two parts of the
environment its deferred tasks act on: `timers` counts the zero-delay tasks
queued by `notify` that have not run yet (they are all the same closure), and
`delivered` records every subscriber invocation `cb(words)` in order.
Subscribers are identified by a number and only observe. -/
structure OmniComplete where
  words : List JSString
  callbacks : List Nat
  changes : Nat
  wordSet : List JSString
  timers : Nat
  delivered : List (Nat × List JSString)
deriving DecidableEq, Repr

/-- `omniComplete(initialWords)`; `none` is an absent argument. -/
def omniComplete (initialWords : Option (List JSString)) : OmniComplete :=
  let words := initialWords.getD []
  { words := words, callbacks := [], changes := 0, wordSet := newSet words,
    timers := 0, delivered := [] }

namespace OmniComplete

/-- `notify()`: `setTimeout` queues one more zero-delay task. -/
def notify (s : OmniComplete) : OmniComplete := { s with timers := s.timers + 1 }

/-- `addWord(word)`. -/
def addWord (s : OmniComplete) (word : JSString) : OmniComplete :=
  if word ∈ s.wordSet then s
  else
    notify { s with
      changes := s.changes + 1
      words := s.words ++ [word]
      wordSet := setAdd s.wordSet word }

/-- `complete(wordPortion)`: the returned array, and the state after the
call (`filter` builds a fresh array and `sort` sorts that array in place, so
the state is the one before the call). -/
def complete (s : OmniComplete) (wordPortion : JSString) : List JSString × OmniComplete :=
  let filtered := s.words.filter (fun word => startsWith word wordPortion)
  (arraySort filtered, s)

/-- `getWords()`. -/
def getWords (s : OmniComplete) : List JSString := s.words

/-- `subscribe(callback)`. -/
def subscribe (s : OmniComplete) (cb : Nat) : OmniComplete :=
  { s with callbacks := s.callbacks ++ [cb] }

/-- The body of the task queued by `notify`. -/
def notifyTask (s : OmniComplete) : OmniComplete :=
  if s.changes ≠ 0 then
    { s with
      changes := 0
      delivered := s.delivered ++ s.callbacks.map (fun cb => (cb, s.words)) }
  else notify s

/-- The event loop runs the oldest queued task, if there is one. -/
def runTask (s : OmniComplete) : OmniComplete :=
  if s.timers = 0 then s else notifyTask { s with timers := s.timers - 1 }

/-- The event loop runs `k` tasks in a row with nothing else in between. -/
def runTasks : Nat → OmniComplete → OmniComplete
  | 0, s => s
  | k + 1, s => runTasks k (runTask s)

end OmniComplete

/-- The input sequence with later duplicates removed (written from the
specification of `getWords`, for comparison with `addWord`). -/
def firstOccurrences : List JSString → List JSString
  | [] => []
  | x :: xs => x :: (firstOccurrences xs).filter (fun y => y ≠ x)

/-! ## JavaScript objects used as dictionaries -/

/-- A value read out of the `macros` object or returned by `getMacro`.
`inherited key` is the value that `Object.prototype` holds under `key`: a
built-in function, or the prototype object itself for `__proto__`. -/
inductive Value where
  | undefined
  | null
  | str (s : JSString)
  | inherited (key : JSString)
deriving DecidableEq, Repr

/-- The own properties of a plain object whose values are strings, in
creation order. -/
abbrev JSObject := List (JSString × JSString)

/-- The property names of `Object.prototype` (ECMAScript, Annex B included),
which every plain object inherits. -/
def objectPrototypeKeys : List JSString :=
  [js "constructor", js "__defineGetter__", js "__defineSetter__", js "hasOwnProperty",
   js "__lookupGetter__", js "__lookupSetter__", js "isPrototypeOf",
   js "propertyIsEnumerable", js "toString", js "valueOf", js "__proto__",
   js "toLocaleString"]

/-- JavaScript truthiness of a value. -/
def truthy : Value → Bool
  | .undefined => false
  | .null => false
  | .str s => !s.isEmpty
  | .inherited _ => true

namespace JSObject

/-- Whether `o` has an own property `key`. -/
def hasOwn (o : JSObject) (key : JSString) : Bool := (o.lookup key).isSome

/-- The property read `o[key]`: an own property, else the prototype chain. -/
def get (o : JSObject) (key : JSString) : Value :=
  match o.lookup key with
  | some v => .str v
  | none => if key ∈ objectPrototypeKeys then .inherited key else .undefined

/-- `CreateDataProperty(o, key, v)`: overwrite the own property or append it. -/
def defineOwn : JSObject → JSString → JSString → JSObject
  | [], key, v => [(key, v)]
  | (k, w) :: rest, key, v =>
    if k = key then (k, v) :: rest else (k, w) :: defineOwn rest key v

/-- The assignment `o[key] = v` of a string `v`: an own property is
overwritten; the inherited accessor `__proto__` ignores a string; any other
name becomes a new own property. -/
def set (o : JSObject) (key v : JSString) : JSObject :=
  if o.hasOwn key then o.defineOwn key v
  else if key = js "__proto__" then o
  else o.defineOwn key v

/-- The object spread `{...src}` (`none` is `undefined`). -/
def spread (src : Option JSObject) : JSObject :=
  (src.getD []).foldl (fun o p => o.defineOwn p.1 p.2) []

/-- Numeric value of a decimal numeral. -/
def indexValue (key : JSString) : Nat := key.foldl (fun n c => 10 * n + (c - 48)) 0

/-- Whether a property name is an array index: a canonical decimal numeral
(no leading zero) not above `2^32 - 2`. -/
def isArrayIndex (key : JSString) : Bool :=
  !key.isEmpty && key.all (fun c => 48 ≤ c && c ≤ 57) &&
    (key == [48] || key.head? != some 48) && indexValue key ≤ 4294967294

/-- `Object.keys(o)`: array-index names in ascending numeric order, then the
other names in creation order. -/
def keys (o : JSObject) : List JSString :=
  let names := o.map Prod.fst
  (names.filter isArrayIndex).insertionSort (fun a b => indexValue a ≤ indexValue b)
    ++ names.filter (fun k => !isArrayIndex k)

end JSObject

/-! ## `macroSystem` -/

/-- The closure state of `macroSystem`. -/
structure MacroSystem where
  macros : JSObject
  completion : OmniComplete
deriving DecidableEq, Repr

/-- `macroSystem(initialMacros)`. -/
def macroSystem (initialMacros : Option JSObject) : MacroSystem :=
  let macros := JSObject.spread initialMacros
  { macros := macros, completion := omniComplete (some (JSObject.keys macros)) }

/-- One match of a regular expression with one capture group: `index`,
the matched text (`'0'`) and the group (`'1'`). -/
structure RegExpMatch where
  index : Nat
  text : JSString
  group : JSString
deriving DecidableEq, Repr

/-- Errors a JavaScript expression can throw here. -/
inductive JSError where
  | typeError
deriving DecidableEq, Repr

/-- The scanner behind `text.matchAll(/[\w\/]+/g)`: `pos` is the position of
the next code unit, `cur` the start and the reversed content of the run being
matched.  Every maximal run of class characters is one match. -/
def scanTokens : Nat → Option (Nat × JSString) → JSString → List (Nat × JSString)
  | _, none, [] => []
  | _, some (i, acc), [] => [(i, acc.reverse)]
  | pos, none, c :: cs =>
    if isTokenChar c then scanTokens (pos + 1) (some (pos, [c])) cs
    else scanTokens (pos + 1) none cs
  | pos, some (i, acc), c :: cs =>
    if isTokenChar c then scanTokens (pos + 1) (some (i, c :: acc)) cs
    else (i, acc.reverse) :: scanTokens (pos + 1) none cs

/-- `text.matchAll(/[\w\/]+/g)`: the matches as pairs `(index, '0')`. -/
def matchAll (text : JSString) : List (Nat × JSString) := scanTokens 0 none text

/-- The first match of `/\/([\w]+)$/` in `text`, or `none` (JavaScript
`null`): start positions are tried from left to right, and a start matches
when it holds `/` and everything after it up to the end of the text is a
non-empty run of word characters. -/
def matchTrailing : JSString → Option RegExpMatch
  | [] => none
  | c :: cs =>
    if c = slash ∧ cs ≠ [] ∧ cs.all isWordChar = true then
      some { index := 0, text := c :: cs, group := cs }
    else
      (matchTrailing cs).map (fun r => { r with index := r.index + 1 })

/-- Whether a code unit is a decimal digit. -/
def isDigit (c : Nat) : Bool := 48 ≤ c && c ≤ 57

/-- The replacement for the one-digit reference `$d` when the expression has
`captures` as its groups (all of them matched): the group, or the reference
itself when there is no such group. -/
def oneDigitRef (captures : List JSString) (d : Nat) : JSString :=
  let index := d - 48
  if 1 ≤ index ∧ index ≤ captures.length then captures.getD (index - 1) [] else [36, d]

/-- One turn of the loop of ECMAScript `GetSubstitution` for an expression
without named groups: the replacement of the reference `ref` that the
non-empty `templateRemainder` starts with, and the length of `ref`. -/
def substitutionRef (matched str : JSString) (position : Nat) (captures : List JSString)
    (templateRemainder : JSString) : JSString × Nat :=
  match templateRemainder with
  | 36 :: 36 :: _ => ([36], 2)
  | 36 :: 96 :: _ => (str.take position, 2)
  | 36 :: 38 :: _ => (matched, 2)
  | 36 :: 39 :: _ => (str.drop (min (position + matched.length) str.length), 2)
  | 36 :: d :: rest =>
    if isDigit d then
      match rest with
      | e :: _ =>
        if isDigit e then
          let index := 10 * (d - 48) + (e - 48)
          if index > captures.length then (oneDigitRef captures d, 2)
          else if 1 ≤ index then (captures.getD (index - 1) [], 3)
          else ([36, d, e], 3)
        else (oneDigitRef captures d, 2)
      | [] => (oneDigitRef captures d, 2)
    else ([36], 1)
  | c :: _ => ([c], 1)
  | [] => ([], 0)

/-- The loop of `GetSubstitution` over the replacement template; `skip` is
the number of code units of the current reference still to be passed over. -/
def substitutionLoop (matched str : JSString) (position : Nat) (captures : List JSString) :
    Nat → JSString → JSString
  | _, [] => []
  | skip + 1, _ :: rest => substitutionLoop matched str position captures skip rest
  | 0, c :: rest =>
    let ref := substitutionRef matched str position captures (c :: rest)
    ref.1 ++ substitutionLoop matched str position captures (ref.2 - 1) rest

/-- ECMAScript `GetSubstitution(matched, str, position, captures, undefined,
replacementTemplate)`: expands `$$`, the back-tick, ampersand and apostrophe
references and the numbered references `$n`, `$nn`; every other code unit is
copied. -/
def getSubstitution (matched str : JSString) (position : Nat) (captures : List JSString)
    (replacementTemplate : JSString) : JSString :=
  substitutionLoop matched str position captures 0 replacementTemplate

/-- `Array.prototype.join('')` on one element: `ToString`, with `null` and
`undefined` giving the empty string.  `hostText key` is the text the host
gives the value `Object.prototype` holds under `key` (implementation-defined
for the built-in functions). -/
def Value.toText (hostText : JSString → JSString) : Value → JSString
  | .undefined => []
  | .null => []
  | .str s => s
  | .inherited key => hostText key

namespace MacroSystem

/-- `addMacro(name, expansion)`. -/
def addMacro (m : MacroSystem) (name expansion : JSString) : MacroSystem :=
  { macros := m.macros.set name expansion, completion := m.completion.addWord name }

/-- `getMacro(name)`. -/
def getMacro (m : MacroSystem) (name : JSString) : Value :=
  if truthy (m.macros.get name) then m.macros.get name
  else
    let possibleMacros := (m.completion.complete name).1
    match possibleMacros with
    | [only] => m.macros.get only
    | _ => .null

/-- `splitText(text)`. -/
def splitText (text : JSString) : JSString × List (Nat × JSString) := (text, matchAll text)

/-- One turn of the loop of `replaceSplitText`; the state is
`(replaced, lastIdx)`. -/
def replaceStep (hostText : JSString → JSString) (m : MacroSystem) (input : JSString)
    (st : List JSString × Nat) (mt : Nat × JSString) : List JSString × Nat :=
  let index := mt.1
  let text := mt.2
  let replacement := m.getMacro (substringFrom text 1)
  let replaced := st.1 ++ [substring input st.2 index]
  let replaced := replaced ++ [if truthy replacement then replacement.toText hostText else text]
  (replaced, index + text.length)

/-- `replaceSplitText([input, split])`. -/
def replaceSplitText (hostText : JSString → JSString) (m : MacroSystem)
    (arg : JSString × List (Nat × JSString)) : JSString :=
  let input := arg.1
  let st := arg.2.foldl (replaceStep hostText m input) ([], 0)
  let replaced := st.1 ++ [substringFrom input st.2]
  replaced.flatten

/-- `replaceText = compose(replaceSplitText, splitText)`. -/
def replaceText (hostText : JSString → JSString) (m : MacroSystem) (text : JSString) : JSString :=
  replaceSplitText hostText m (splitText text)

/-- `completeEnd(text, completion)` for a string `completion`:
`text.replace(/\/([\w]+)$/, completion)`. -/
def completeEnd (text completion : JSString) : JSString :=
  match matchTrailing text with
  | none => text
  | some r =>
    text.take r.index
      ++ getSubstitution r.text text r.index [r.group] completion
      ++ text.drop (r.index + r.text.length)

/-- The expression `text.match(/\/([\w]+)$/)[1]`: indexing `null` throws. -/
def trailingName (text : JSString) : Except JSError JSString :=
  match matchTrailing text with
  | none => .error .typeError
  | some r => .ok r.group

/-- `complete(text)`: the `try` block, and `[]` from the `catch`. -/
def complete (m : MacroSystem) (text : JSString) : List JSString :=
  match (trailingName text).map (fun name => (m.completion.complete name).1) with
  | .ok result => result
  | .error _ => []

end MacroSystem

/-- A text that ends with a trigger token: `pre + "/" + w` with `w` a
non-empty run of word characters. -/
def EndsWithToken (text : JSString) : Prop :=
  ∃ pre w, w ≠ [] ∧ (∀ c ∈ w, isWordChar c = true) ∧ text = pre ++ [slash] ++ w

/-- The word list of the backing index has no duplicates and the index
tests membership against exactly that list. -/
def MacroSystem.IndexConsistent (m : MacroSystem) : Prop :=
  m.completion.words.Nodup ∧ ∀ w, w ∈ m.completion.wordSet ↔ w ∈ m.completion.words

/-- The host text used in the examples: the form V8 prints for the values
of `Object.prototype`. -/
def v8Text (key : JSString) : JSString :=
  if key = js "__proto__" then js "[object Object]"
  else if key = js "constructor" then js "function Object() { [native code] }"
  else js "function " ++ key ++ js "() { [native code] }"

/-- The table of `translatorMode`. -/
def sessionMacros : JSObject :=
  [(js "en", js "[en]"), (js "peko", js "pekora"), (js "ero", js "erofi")]

/-! ## The string order -/

theorem strLt_irrefl (x : JSString) : strLt x x = false := by
  induction x with
  | nil => rfl
  | cons a as ih => simp [strLt, ih]

theorem strLt_asymm : ∀ x y : JSString, strLt x y = true → strLt y x = false := by
  intro x
  induction x with
  | nil => intro y _; cases y <;> rfl
  | cons a as ih =>
    intro y h
    cases y with
    | nil => simp [strLt] at h
    | cons b bs =>
      simp only [strLt] at h ⊢
      split_ifs at h ⊢ <;> first | omega | rfl | exact ih bs h

theorem strLe_total (x y : JSString) : strLe x y = true ∨ strLe y x = true := by
  unfold strLe
  cases h : strLt y x
  · left; rfl
  · right; simp [strLt_asymm y x h]

theorem strLe_trans : ∀ x y z : JSString,
    strLe x y = true → strLe y z = true → strLe x z = true := by
  unfold strLe
  intro x
  induction x with
  | nil => intro y z _ _; cases z <;> simp [strLt]
  | cons a as ih =>
    intro y z hxy hyz
    cases y with
    | nil =>
      cases z with
      | nil => simp [strLt] at hxy
      | cons c cs => simp [strLt] at hxy
    | cons b bs =>
      cases z with
      | nil => simp [strLt] at hyz
      | cons c cs =>
        simp only [strLt, Bool.not_eq_true'] at hxy hyz ⊢
        have ih2 := ih bs cs
        simp only [Bool.not_eq_true'] at ih2
        split_ifs at hxy hyz ⊢ <;> first | omega | rfl | exact ih2 hxy hyz

theorem strLe_antisymm : ∀ x y : JSString,
    strLe x y = true → strLe y x = true → x = y := by
  unfold strLe
  intro x
  induction x with
  | nil => intro y h1 h2; cases y with
    | nil => rfl
    | cons b bs => simp [strLt] at h2
  | cons a as ih =>
    intro y hxy hyx
    cases y with
    | nil => simp [strLt] at hxy
    | cons b bs =>
      simp only [strLt, Bool.not_eq_true'] at hxy hyx
      have ih2 := ih bs
      simp only [Bool.not_eq_true'] at ih2
      split_ifs at hxy hyx
      have hab : a = b := by omega
      subst hab
      rw [ih2 hxy hyx]

/-- The comparison is the lexicographic order on code units. -/
theorem strLt_iff_lex : ∀ x y : JSString, strLt x y = true ↔ List.Lex (· < ·) x y := by
  intro x
  induction x with
  | nil =>
    intro y
    cases y with
    | nil => simp [strLt]
    | cons b bs => simp [strLt, List.Lex.nil]
  | cons a as ih =>
    intro y
    cases y with
    | nil => simp [strLt]
    | cons b bs =>
      simp only [strLt]
      constructor
      · intro h
        split_ifs at h with h1 h2
        · exact List.Lex.rel h1
        · have hab : a = b := by omega
          subst hab
          exact List.Lex.cons ((ih bs).1 h)
      · intro h
        cases h with
        | cons h => simp [(ih _).2 h]
        | rel h => simp [h]

instance strLe_isTotal : IsTotal JSString (fun x y => strLe x y = true) := ⟨strLe_total⟩

instance strLe_isTrans : IsTrans JSString (fun x y => strLe x y = true) := ⟨strLe_trans⟩

theorem arraySort_sorted (a : List JSString) :
    (arraySort a).Sorted (fun x y => strLe x y = true) :=
  List.sorted_insertionSort _ a

theorem arraySort_perm (a : List JSString) : (arraySort a).Perm a :=
  List.perm_insertionSort _ a

theorem startsWith_iff (word wordPortion : JSString) :
    startsWith word wordPortion = true ↔ ∃ t, word = wordPortion ++ t := by
  unfold startsWith
  rw [List.isPrefixOf_iff_prefix]
  constructor
  · rintro ⟨t, ht⟩; exact ⟨t, ht.symm⟩
  · rintro ⟨t, ht⟩; exact ⟨t, ht.symm⟩

theorem startsWith_nil (word : JSString) : startsWith word [] = true := by
  simp [startsWith]

/-! ## The word index -/

theorem mem_complete (s : OmniComplete) (p w : JSString) :
    w ∈ (s.complete p).1 ↔ w ∈ s.getWords ∧ ∃ t, w = p ++ t := by
  simp only [OmniComplete.complete, OmniComplete.getWords]
  rw [(arraySort_perm _).mem_iff, List.mem_filter, startsWith_iff]

theorem complete_sorted (s : OmniComplete) (p : JSString) :
    ((s.complete p).1).Sorted (fun x y => strLe x y = true) :=
  arraySort_sorted _

/-- C5: for every vocabulary and every prefix `p`, `complete(p)` returns
exactly the vocabulary words that start with `p` (the same words, as often as
they occur in the vocabulary), in ascending order of the JavaScript string
comparison; `complete("")` returns the whole vocabulary sorted ascending; and
`getWords()` is the same after the call as before. -/
theorem complete_returns_sorted_completions (s : OmniComplete) (p : JSString) :
    (∀ w, w ∈ (s.complete p).1 ↔ w ∈ s.getWords ∧ ∃ t, w = p ++ t) ∧
    ((s.complete p).1).Perm (s.getWords.filter (fun w => startsWith w p)) ∧
    ((s.complete p).1).Sorted (fun x y => strLe x y = true) ∧
    ((s.complete []).1).Perm s.getWords ∧
    ((s.complete []).1).Sorted (fun x y => strLe x y = true) ∧
    (s.complete p).2.getWords = s.getWords := by
  refine ⟨mem_complete s p, arraySort_perm _, complete_sorted s p, ?_, complete_sorted s [],
    rfl⟩
  simp only [OmniComplete.complete, OmniComplete.getWords]
  refine (arraySort_perm _).trans ?_
  simp [startsWith_nil]

theorem firstOccurrences_mem (ws : List JSString) (w : JSString) :
    w ∈ firstOccurrences ws ↔ w ∈ ws := by
  induction ws with
  | nil => simp [firstOccurrences]
  | cons x xs ih =>
    simp only [firstOccurrences, List.mem_cons, List.mem_filter, ih]
    by_cases h : w = x <;> simp [h]

theorem firstOccurrences_nodup (ws : List JSString) : (firstOccurrences ws).Nodup := by
  induction ws with
  | nil => simp [firstOccurrences]
  | cons x xs ih =>
    simp only [firstOccurrences, List.nodup_cons, List.mem_filter]
    exact ⟨by simp, ih.filter _⟩

theorem firstOccurrences_of_nodup (ws : List JSString) (h : ws.Nodup) :
    firstOccurrences ws = ws := by
  induction ws with
  | nil => rfl
  | cons x xs ih =>
    rw [List.nodup_cons] at h
    simp only [firstOccurrences, ih h.2]
    congr 1
    rw [List.filter_eq_self]
    intro y hy
    simp only [decide_eq_true_eq]
    rintro rfl
    exact h.1 hy

/-- What a run of `addWord` calls does to a state whose set holds the word
list: the new words, in order of first occurrence, are appended, and each of
them counts one change and queues one task. -/
theorem addWords_state (ws : List JSString) : ∀ s : OmniComplete, s.wordSet = s.words →
    (ws.foldl OmniComplete.addWord s).wordSet = (ws.foldl OmniComplete.addWord s).words ∧
    (ws.foldl OmniComplete.addWord s).words
      = s.words ++ (firstOccurrences ws).filter (fun w => w ∉ s.words) ∧
    (ws.foldl OmniComplete.addWord s).changes
      = s.changes + ((firstOccurrences ws).filter (fun w => w ∉ s.words)).length ∧
    (ws.foldl OmniComplete.addWord s).timers
      = s.timers + ((firstOccurrences ws).filter (fun w => w ∉ s.words)).length ∧
    (ws.foldl OmniComplete.addWord s).callbacks = s.callbacks ∧
    (ws.foldl OmniComplete.addWord s).delivered = s.delivered := by
  induction ws with
  | nil => intro s h; simp [firstOccurrences, h]
  | cons x xs ih =>
    intro s h
    rw [List.foldl_cons]
    by_cases hx : x ∈ s.words
    · have hs : s.addWord x = s := by simp [OmniComplete.addWord, h, hx]
      rw [hs]
      obtain ⟨h1, h2, h3, h4, h5, h6⟩ := ih s h
      have hf : (firstOccurrences (x :: xs)).filter (fun w => w ∉ s.words)
          = (firstOccurrences xs).filter (fun w => w ∉ s.words) := by
        simp only [firstOccurrences, List.filter_cons, hx, not_true_eq_false, decide_False,
          Bool.false_eq_true, if_false, List.filter_filter]
        apply List.filter_congr
        intro y _
        by_cases hy : y = x <;> simp [hy, hx]
      rw [hf]
      exact ⟨h1, h2, h3, h4, h5, h6⟩
    · have hw : (s.addWord x).words = s.words ++ [x] := by
        simp [OmniComplete.addWord, OmniComplete.notify, h, hx]
      have hset : (s.addWord x).wordSet = (s.addWord x).words := by
        simp [OmniComplete.addWord, OmniComplete.notify, h, hx, setAdd]
      have hc : (s.addWord x).changes = s.changes + 1 := by
        simp [OmniComplete.addWord, OmniComplete.notify, h, hx]
      have ht : (s.addWord x).timers = s.timers + 1 := by
        simp [OmniComplete.addWord, OmniComplete.notify, h, hx]
      have hcb : (s.addWord x).callbacks = s.callbacks := by
        simp [OmniComplete.addWord, OmniComplete.notify, h, hx]
      have hd : (s.addWord x).delivered = s.delivered := by
        simp [OmniComplete.addWord, OmniComplete.notify, h, hx]
      obtain ⟨h1, h2, h3, h4, h5, h6⟩ := ih (s.addWord x) hset
      have hf : (firstOccurrences (x :: xs)).filter (fun w => w ∉ s.words)
          = x :: (firstOccurrences xs).filter (fun w => w ∉ s.words ++ [x]) := by
        simp only [firstOccurrences, List.filter_cons, hx, not_false_eq_true, decide_True,
          if_true, List.filter_filter]
        congr 1
        apply List.filter_congr
        intro y _
        by_cases hy : y = x <;> simp [hy, hx]
      rw [hf]
      rw [hw] at h2 h3 h4
      refine ⟨h1, ?_, ?_, ?_, h5.trans hcb, h6.trans hd⟩
      · rw [h2]; simp
      · rw [h3, hc, List.length_cons]; omega
      · rw [h4, ht, List.length_cons]; omega

/-- C6: after any sequence of `addWord` calls on a word index created empty
(no argument, or an empty array), `getWords()` is the input sequence with
later duplicates removed; it has no duplicates, holds exactly the words added,
and holds exactly the elements of the membership set. -/
theorem getWords_after_addWord_calls (ws : List JSString) :
    omniComplete (some []) = omniComplete none ∧
    (ws.foldl OmniComplete.addWord (omniComplete none)).getWords = firstOccurrences ws ∧
    (ws.foldl OmniComplete.addWord (omniComplete none)).getWords.Nodup ∧
    (∀ w, w ∈ (ws.foldl OmniComplete.addWord (omniComplete none)).getWords ↔ w ∈ ws) ∧
    (∀ w, w ∈ (ws.foldl OmniComplete.addWord (omniComplete none)).getWords
      ↔ w ∈ (ws.foldl OmniComplete.addWord (omniComplete none)).wordSet) := by
  obtain ⟨h1, h2, -⟩ := addWords_state ws (omniComplete none) rfl
  have hw : (ws.foldl OmniComplete.addWord (omniComplete none)).getWords
      = firstOccurrences ws := by
    simp only [OmniComplete.getWords]
    rw [h2]
    simp [omniComplete]
  refine ⟨rfl, hw, ?_, ?_, ?_⟩
  · rw [hw]; exact firstOccurrences_nodup ws
  · intro w; rw [hw]; exact firstOccurrences_mem ws w
  · intro w; simp only [OmniComplete.getWords]; rw [h1]

/-- Once nothing is pending, running tasks delivers nothing more and leaves
the counter at zero. -/
theorem runTasks_idle (k : Nat) : ∀ s : OmniComplete, s.changes = 0 →
    (OmniComplete.runTasks k s).delivered = s.delivered ∧
    (OmniComplete.runTasks k s).changes = 0 := by
  induction k with
  | zero => intro s h; exact ⟨rfl, h⟩
  | succ k ih =>
    intro s h
    simp only [OmniComplete.runTasks]
    have hstep : (OmniComplete.runTask s).changes = 0 ∧
        (OmniComplete.runTask s).delivered = s.delivered := by
      unfold OmniComplete.runTask
      split_ifs with ht
      · exact ⟨h, rfl⟩
      · simp [OmniComplete.notifyTask, OmniComplete.notify, h]
    obtain ⟨h1, h2⟩ := ih (OmniComplete.runTask s) hstep.1
    exact ⟨h1.trans hstep.2, h2⟩

/-- C10: on a fresh word index with one subscriber `cb`, after `addWord` of
`N ≥ 1` distinct words in one synchronous turn (which leaves `N` pending
changes and `N` queued tasks), running any number `k ≥ 1` of queued tasks
invokes the subscriber exactly once, with the list of all `N` words, and
leaves the pending-change counter at zero. -/
theorem flush_coalescing (cb : Nat) (ws : List JSString) (k : Nat)
    (hN : 1 ≤ ws.length) (hdistinct : ws.Nodup) (hk : 1 ≤ k) :
    (ws.foldl OmniComplete.addWord ((omniComplete none).subscribe cb)).changes = ws.length ∧
    (ws.foldl OmniComplete.addWord ((omniComplete none).subscribe cb)).timers = ws.length ∧
    (OmniComplete.runTasks k
      (ws.foldl OmniComplete.addWord ((omniComplete none).subscribe cb))).delivered
        = [(cb, ws)] ∧
    (OmniComplete.runTasks k
      (ws.foldl OmniComplete.addWord ((omniComplete none).subscribe cb))).changes = 0 := by
  obtain ⟨-, h2, h3, h4, h5, h6⟩ :=
    addWords_state ws ((omniComplete none).subscribe cb) rfl
  rw [firstOccurrences_of_nodup ws hdistinct] at h2 h3 h4
  have hfilter : ws.filter (fun w => decide (w ∉ ((omniComplete none).subscribe cb).words))
      = ws := by
    simp [omniComplete, OmniComplete.subscribe]
  rw [hfilter] at h2 h3 h4
  have e2 : ((omniComplete none).subscribe cb).words = [] := rfl
  have e3 : ((omniComplete none).subscribe cb).changes = 0 := rfl
  have e4 : ((omniComplete none).subscribe cb).timers = 0 := rfl
  have e5 : ((omniComplete none).subscribe cb).callbacks = [cb] := rfl
  have e6 : ((omniComplete none).subscribe cb).delivered = [] := rfl
  rw [e2, List.nil_append] at h2
  rw [e3, Nat.zero_add] at h3
  rw [e4, Nat.zero_add] at h4
  rw [e5] at h5
  rw [e6] at h6
  refine ⟨h3, h4, ?_⟩
  obtain ⟨k, rfl⟩ : ∃ j, k = j + 1 := ⟨k - 1, by omega⟩
  simp only [OmniComplete.runTasks]
  generalize ws.foldl OmniComplete.addWord ((omniComplete none).subscribe cb) = s1
    at h2 h3 h4 h5 h6
  have hrun : (OmniComplete.runTask s1).changes = 0 ∧
      (OmniComplete.runTask s1).delivered = [(cb, ws)] := by
    have ht : s1.timers ≠ 0 := by omega
    have hc : s1.changes ≠ 0 := by omega
    simp [OmniComplete.runTask, OmniComplete.notifyTask, ht, hc, h2, h5, h6]
  obtain ⟨r1, r2⟩ := runTasks_idle k (OmniComplete.runTask s1) hrun.1
  exact ⟨r1.trans hrun.2, r2⟩

theorem flush_coalescing_witness :
    (OmniComplete.runTasks 5
      ([js "a", js "b", js "c"].foldl OmniComplete.addWord
        ((omniComplete none).subscribe 7))).delivered
        = [(7, [js "a", js "b", js "c"])] :=
  (flush_coalescing 7 [js "a", js "b", js "c"] 5 (by decide) (by decide) (by decide)).2.2.1

/-! ## The token scanner and `replaceText` -/

theorem scanTokens_skip (pre : JSString) : ∀ (pos : Nat) (rest : JSString),
    (∀ c ∈ pre, isTokenChar c = false) →
    scanTokens pos none (pre ++ rest) = scanTokens (pos + pre.length) none rest := by
  induction pre with
  | nil => intro pos rest _; rfl
  | cons c cs ih =>
    intro pos rest h
    have hc : isTokenChar c = false := h c (List.mem_cons_self _ _)
    have hcs : ∀ d ∈ cs, isTokenChar d = false := fun d hd => h d (List.mem_cons_of_mem _ hd)
    simp only [List.cons_append, scanTokens, hc, Bool.false_eq_true, if_false, List.append_eq]
    rw [ih (pos + 1) rest hcs, List.length_cons]
    congr 1
    omega

theorem scanTokens_run (run : JSString) : ∀ (pos i : Nat) (acc rest : JSString),
    (∀ c ∈ run, isTokenChar c = true) →
    scanTokens pos (some (i, acc)) (run ++ rest)
      = scanTokens (pos + run.length) (some (i, run.reverse ++ acc)) rest := by
  induction run with
  | nil => intro pos i acc rest _; rfl
  | cons c cs ih =>
    intro pos i acc rest h
    have hc : isTokenChar c = true := h c (List.mem_cons_self _ _)
    have hcs : ∀ d ∈ cs, isTokenChar d = true := fun d hd => h d (List.mem_cons_of_mem _ hd)
    simp only [List.cons_append, scanTokens, hc, if_true, List.append_eq]
    rw [ih (pos + 1) i (c :: acc) rest hcs, List.length_cons, List.reverse_cons,
      List.append_assoc, List.singleton_append]
    congr 1
    omega

theorem scanTokens_gap (post : JSString) (pos i : Nat) (acc : JSString)
    (h : ∀ c ∈ post, isTokenChar c = false) :
    scanTokens pos (some (i, acc)) post = [(i, acc.reverse)] := by
  cases post with
  | nil => rfl
  | cons c cs =>
    have hc : isTokenChar c = false := h c (List.mem_cons_self _ _)
    have hcs : ∀ d ∈ cs, isTokenChar d = false := fun d hd => h d (List.mem_cons_of_mem _ hd)
    simp only [scanTokens, hc, Bool.false_eq_true, if_false]
    have := scanTokens_skip cs (pos + 1) [] hcs
    rw [List.append_nil] at this
    rw [this]
    rfl

theorem isTokenChar_of_word {c : Nat} (h : isWordChar c = true) : isTokenChar c = true := by
  simp [isTokenChar, h]

theorem isTokenChar_slash : isTokenChar slash = true := by decide

theorem isWordChar_slash : isWordChar slash = false := by decide

theorem not_isTokenChar {c : Nat} (h : isWordChar c = false ∧ c ≠ slash) :
    isTokenChar c = false := by
  simp [isTokenChar, h.1, h.2]

/-- The only match of `/[\w\/]+/g` in `pre + "/" + name + post` is the token
`"/" + name`, at the offset where `pre` ends. -/
theorem matchAll_single_token (pre name post : JSString)
    (hword : ∀ c ∈ name, isWordChar c = true)
    (hpre : ∀ c ∈ pre, isWordChar c = false ∧ c ≠ slash)
    (hpost : ∀ c ∈ post, isWordChar c = false ∧ c ≠ slash) :
    matchAll (pre ++ [slash] ++ name ++ post) = [(pre.length, slash :: name)] := by
  have h1 : ∀ c ∈ pre, isTokenChar c = false := fun c hc => not_isTokenChar (hpre c hc)
  have h2 : ∀ c ∈ name, isTokenChar c = true := fun c hc => isTokenChar_of_word (hword c hc)
  have h3 : ∀ c ∈ post, isTokenChar c = false := fun c hc => not_isTokenChar (hpost c hc)
  unfold matchAll
  rw [List.append_assoc, List.append_assoc, scanTokens_skip pre 0 _ h1]
  simp only [List.singleton_append, scanTokens, isTokenChar_slash, if_true, List.append_eq,
    List.nil_append]
  rw [scanTokens_run name _ _ _ post h2, scanTokens_gap post _ _ _ h3]
  simp

theorem substring_prefix (pre rest : JSString) :
    substring (pre ++ rest) 0 pre.length = pre := by
  simp [substring]

/-- What `replaceText` does to a text holding one token: the text with the
token replaced by the string pushed for it. -/
theorem replaceText_single (hostText : JSString → JSString) (m : MacroSystem)
    (pre name post : JSString)
    (hword : ∀ c ∈ name, isWordChar c = true)
    (hpre : ∀ c ∈ pre, isWordChar c = false ∧ c ≠ slash)
    (hpost : ∀ c ∈ post, isWordChar c = false ∧ c ≠ slash) :
    m.replaceText hostText (pre ++ [slash] ++ name ++ post)
      = pre ++ (if truthy (m.getMacro name) then (m.getMacro name).toText hostText
                else slash :: name) ++ post := by
  unfold MacroSystem.replaceText MacroSystem.splitText MacroSystem.replaceSplitText
  rw [matchAll_single_token pre name post hword hpre hpost]
  simp only [List.foldl_cons, List.foldl_nil, MacroSystem.replaceStep, substringFrom,
    List.drop_succ_cons, List.drop_zero, List.nil_append]
  have e1 : substring (pre ++ [slash] ++ name ++ post) 0 pre.length = pre := by
    rw [List.append_assoc, List.append_assoc]; exact substring_prefix _ _
  have e2 : List.drop (pre.length + (slash :: name).length) (pre ++ [slash] ++ name ++ post)
      = post := by
    have : pre ++ [slash] ++ name ++ post = (pre ++ slash :: name) ++ post := by simp
    rw [this]
    have hl : pre.length + (slash :: name).length = (pre ++ slash :: name).length := by simp
    rw [hl, List.drop_left]
  rw [e1, e2]
  simp

/-- C1: for every macro table, every non-empty name of word characters and
all strings `pre`, `post` without word characters and without `/`:
`replaceText(pre + "/" + name + post)` is `pre + e + post` when
`getMacro(name)` returns a non-empty string `e`, and is the input text when
`getMacro(name)` returns `null`. -/
theorem replaceText_token (hostText : JSString → JSString) (m : MacroSystem)
    (pre name post : JSString) (_hname : name ≠ [])
    (hword : ∀ c ∈ name, isWordChar c = true)
    (hpre : ∀ c ∈ pre, isWordChar c = false ∧ c ≠ slash)
    (hpost : ∀ c ∈ post, isWordChar c = false ∧ c ≠ slash) :
    (∀ e, e ≠ [] → m.getMacro name = .str e →
      m.replaceText hostText (pre ++ [slash] ++ name ++ post) = pre ++ e ++ post) ∧
    (m.getMacro name = .null →
      m.replaceText hostText (pre ++ [slash] ++ name ++ post)
        = pre ++ [slash] ++ name ++ post) := by
  constructor
  · intro e he hget
    rw [replaceText_single hostText m pre name post hword hpre hpost, hget]
    cases e with
    | nil => exact absurd rfl he
    | cons c cs => simp [truthy, Value.toText]
  · intro hget
    rw [replaceText_single hostText m pre name post hword hpre hpost, hget]
    simp [truthy]

theorem replaceText_token_witness :
    (macroSystem (some [(js "peko", js "pekora")])).replaceText v8Text
        (js " " ++ [slash] ++ js "peko" ++ js " ") = js " " ++ js "pekora" ++ js " " ∧
    (macroSystem (some [(js "peko", js "pekora")])).replaceText v8Text
        (js " " ++ [slash] ++ js "unknown" ++ js " ")
      = js " " ++ [slash] ++ js "unknown" ++ js " " :=
  ⟨(replaceText_token v8Text (macroSystem (some [(js "peko", js "pekora")]))
      (js " ") (js "peko") (js " ") (by decide) (by decide) (by decide) (by decide)).1
      (js "pekora") (by decide) (by decide),
   (replaceText_token v8Text (macroSystem (some [(js "peko", js "pekora")]))
      (js " ") (js "unknown") (js " ") (by decide) (by decide) (by decide) (by decide)).2
      (by decide)⟩

/-! ## The trailing token: `completeEnd` and `complete` -/

theorem all_isWordChar_iff (w : JSString) :
    w.all isWordChar = true ↔ ∀ c ∈ w, isWordChar c = true := by
  simp [List.all_eq_true]

/-- On a text that ends with a trigger token the expression matches that
token: at the offset where `pre` ends, with the name as its group. -/
theorem matchTrailing_token (pre : JSString) (w : JSString) (hne : w ≠ [])
    (hword : ∀ c ∈ w, isWordChar c = true) :
    matchTrailing (pre ++ [slash] ++ w)
      = some { index := pre.length, text := slash :: w, group := w } := by
  induction pre with
  | nil =>
    have hall : w.all isWordChar = true := (all_isWordChar_iff w).2 hword
    simp [matchTrailing, hne, hall]
  | cons c cs ih =>
    have hnot : ¬ (c = slash ∧ cs ++ [slash] ++ w ≠ [] ∧
        (cs ++ [slash] ++ w).all isWordChar = true) := by
      rintro ⟨-, -, hall⟩
      have := (all_isWordChar_iff _).1 hall slash (by simp)
      rw [isWordChar_slash] at this
      exact Bool.false_ne_true this
    have hstep : matchTrailing (c :: cs ++ [slash] ++ w)
        = (matchTrailing (cs ++ [slash] ++ w)).map
            (fun r => { r with index := r.index + 1 }) := by
      show matchTrailing (c :: (cs ++ [slash] ++ w)) = _
      rw [matchTrailing, if_neg hnot]
    rw [hstep, ih]
    rfl

/-- On a text that does not end with a trigger token the expression does
not match. -/
theorem matchTrailing_none (text : JSString) (h : ¬ EndsWithToken text) :
    matchTrailing text = none := by
  induction text with
  | nil => rfl
  | cons c cs ih =>
    have hnot : ¬ (c = slash ∧ cs ≠ [] ∧ cs.all isWordChar = true) := by
      rintro ⟨rfl, hne, hall⟩
      exact h ⟨[], cs, hne, (all_isWordChar_iff cs).1 hall, rfl⟩
    have hcs : ¬ EndsWithToken cs := by
      rintro ⟨pre, w, hne, hw, rfl⟩
      exact h ⟨c :: pre, w, hne, hw, rfl⟩
    rw [matchTrailing, if_neg hnot, ih hcs]
    rfl

theorem substitutionLoop_literal (matched str : JSString) (position : Nat)
    (captures : List JSString) (template : JSString) (h : ∀ c ∈ template, c ≠ 36) :
    substitutionLoop matched str position captures 0 template = template := by
  induction template with
  | nil => rfl
  | cons c cs ih =>
    have hc : c ≠ 36 := h c (List.mem_cons_self _ _)
    have hcs : ∀ d ∈ cs, d ≠ 36 := fun d hd => h d (List.mem_cons_of_mem _ hd)
    have href : substitutionRef matched str position captures (c :: cs) = ([c], 1) := by
      unfold substitutionRef
      split <;> simp_all
    rw [substitutionLoop, href]
    simp [ih hcs]

/-- A replacement text without `$` is inserted as it is. -/
theorem completeEnd_literal (pre w completion : JSString) (hne : w ≠ [])
    (hword : ∀ c ∈ w, isWordChar c = true) (hlit : ∀ c ∈ completion, c ≠ 36) :
    MacroSystem.completeEnd (pre ++ [slash] ++ w) completion = pre ++ completion := by
  unfold MacroSystem.completeEnd
  rw [matchTrailing_token pre w hne hword]
  simp only [getSubstitution]
  rw [substitutionLoop_literal _ _ _ _ _ hlit]
  have e1 : List.take pre.length (pre ++ [slash] ++ w) = pre := by
    rw [List.append_assoc, List.take_left]
  have e2 : List.drop (pre.length + (slash :: w).length) (pre ++ [slash] ++ w) = [] := by
    apply List.drop_eq_nil_of_le
    simp
  rw [e1, e2, List.append_nil]

/-- Without a trailing token `completeEnd` returns the text. -/
theorem completeEnd_unchanged (text completion : JSString) (h : ¬ EndsWithToken text) :
    MacroSystem.completeEnd text completion = text := by
  unfold MacroSystem.completeEnd
  rw [matchTrailing_none text h]

/-- C8: `complete(text)` of the macro table never raises (it is a total
function into arrays): on a text ending with a trigger token `"/" + w` it
returns the completions of `w` in the backing word index, which are the
names in the index that start with `w`, sorted ascending; on every
other text the indexing of `null` throws inside the `try` block and the
`catch` returns the empty array. -/
theorem complete_of_text (m : MacroSystem) :
    (∀ pre w, w ≠ [] → (∀ c ∈ w, isWordChar c = true) →
      m.complete (pre ++ [slash] ++ w) = (m.completion.complete w).1 ∧
      (∀ x, x ∈ m.complete (pre ++ [slash] ++ w)
        ↔ x ∈ m.completion.getWords ∧ ∃ t, x = w ++ t) ∧
      (m.complete (pre ++ [slash] ++ w)).Sorted (fun x y => strLe x y = true)) ∧
    (∀ text, ¬ EndsWithToken text →
      MacroSystem.trailingName text = .error .typeError ∧ m.complete text = []) := by
  constructor
  · intro pre w hne hword
    have h : m.complete (pre ++ [slash] ++ w) = (m.completion.complete w).1 := by
      unfold MacroSystem.complete MacroSystem.trailingName
      rw [matchTrailing_token pre w hne hword]
      rfl
    rw [h]
    exact ⟨rfl, mem_complete m.completion w, complete_sorted m.completion w⟩
  · intro text h
    unfold MacroSystem.complete MacroSystem.trailingName
    rw [matchTrailing_none text h]
    exact ⟨rfl, rfl⟩

theorem complete_of_text_witness :
    (macroSystem (some sessionMacros)).complete (js "say " ++ [slash] ++ js "e")
      = [js "en", js "ero"] ∧
    (macroSystem (some sessionMacros)).complete (js "say e") = [] :=
  ⟨((complete_of_text (macroSystem (some sessionMacros))).1 (js "say ") (js "e")
      (by decide) (by decide)).1.trans (by decide),
   ((complete_of_text (macroSystem (some sessionMacros))).2 (js "say e")
      (by
        rintro ⟨pre, w, hne, hw, h⟩
        have hmem : slash ∈ js "say e" := by rw [h]; simp
        revert hmem
        decide)).2⟩

/-! ## `addMacro` and `getMacro` -/

theorem lookup_defineOwn (o : JSObject) (key v : JSString) :
    (o.defineOwn key v).lookup key = some v := by
  induction o with
  | nil => simp [JSObject.defineOwn, List.lookup]
  | cons p rest ih =>
    obtain ⟨k, w⟩ := p
    by_cases h : k = key
    · subst h; simp [JSObject.defineOwn, List.lookup]
    · have h2 : (key == k) = false := by simpa using fun e => h e.symm
      simp [JSObject.defineOwn, h, List.lookup, h2, ih]

/-- An exact match with a non-empty expansion is returned at once (for
`__proto__` only when the table holds it as an own property). -/
theorem getMacro_addMacro_nonempty (m : MacroSystem) (name expansion : JSString)
    (hne : expansion ≠ [])
    (hname : name ≠ js "__proto__" ∨ m.macros.hasOwn name = true) :
    (m.addMacro name expansion).getMacro name = .str expansion := by
  have hset : (m.macros.set name expansion).lookup name = some expansion := by
    unfold JSObject.set
    split_ifs with h1 h2
    · exact lookup_defineOwn _ _ _
    · rcases hname with h | h
      · exact absurd h2 h
      · exact absurd h h1
    · exact lookup_defineOwn _ _ _
  have hget : (m.addMacro name expansion).macros.get name = .str expansion := by
    simp [MacroSystem.addMacro, JSObject.get, hset]
  unfold MacroSystem.getMacro
  rw [hget]
  cases expansion with
  | nil => exact absurd rfl hne
  | cons c cs => simp [truthy]

theorem filter_eq_singleton {p : JSString → Bool} :
    ∀ (l : List JSString) (w : JSString), l.Nodup → w ∈ l → p w = true →
      (∀ x ∈ l, p x = true → x = w) → l.filter p = [w] := by
  intro l
  induction l with
  | nil => intro w _ hw; simp at hw
  | cons a as ih =>
    intro w hnd hw hp huniq
    rw [List.nodup_cons] at hnd
    by_cases hpa : p a = true
    · have haw : a = w := huniq a (List.mem_cons_self _ _) hpa
      subst haw
      rw [List.filter_cons_of_pos hpa]
      congr 1
      rw [List.filter_eq_nil_iff]
      intro x hx hpx
      have := huniq x (List.mem_cons_of_mem _ hx) hpx
      subst this
      exact hnd.1 hx
    · have hne : w ≠ a := by rintro rfl; exact hpa hp
      have hw2 : w ∈ as := by
        rcases List.mem_cons.1 hw with h | h
        · exact absurd h hne
        · exact h
      rw [List.filter_cons_of_neg hpa]
      exact ih w hnd.2 hw2 hp (fun x hx => huniq x (List.mem_cons_of_mem _ hx))

/-- For a name that is neither an own property of the table nor a property
name of `Object.prototype`, on an index without duplicates: exactly one word
starting with the name gives that word's entry; no such word, or two
different ones, give `null`. -/
theorem getMacro_by_prefix (m : MacroSystem) (name : JSString)
    (hnd : m.completion.words.Nodup)
    (hown : m.macros.hasOwn name = false) (hinh : name ∉ objectPrototypeKeys) :
    (∀ w, w ∈ m.completion.words → startsWith w name = true →
      (∀ x ∈ m.completion.words, startsWith x name = true → x = w) →
      m.getMacro name = m.macros.get w) ∧
    ((∀ x ∈ m.completion.words, startsWith x name = false) → m.getMacro name = .null) ∧
    (∀ w x, w ∈ m.completion.words → x ∈ m.completion.words → w ≠ x →
      startsWith w name = true → startsWith x name = true → m.getMacro name = .null) := by
  have hlook : m.macros.lookup name = none := by
    simpa [JSObject.hasOwn] using hown
  have hget : m.macros.get name = .undefined := by
    simp [JSObject.get, hlook, hinh]
  have hresult : m.getMacro name
      = match (m.completion.complete name).1 with
        | [only] => m.macros.get only
        | _ => .null := by
    unfold MacroSystem.getMacro
    rw [hget]
    simp [truthy]
  refine ⟨?_, ?_, ?_⟩
  · intro w hw hp huniq
    have hf := filter_eq_singleton (p := fun word => startsWith word name)
      m.completion.words w hnd hw hp huniq
    rw [hresult]
    simp [OmniComplete.complete, hf, arraySort]
  · intro hnone
    have hf : m.completion.words.filter (fun word => startsWith word name) = [] := by
      rw [List.filter_eq_nil_iff]
      intro x hx
      simp [hnone x hx]
    rw [hresult]
    simp [OmniComplete.complete, hf, arraySort]
  · intro w x hw hx hne hpw hpx
    rw [hresult]
    have hmw : w ∈ (m.completion.complete name).1 := by
      simp only [OmniComplete.complete]
      rw [(arraySort_perm _).mem_iff, List.mem_filter]
      exact ⟨hw, hpw⟩
    have hmx : x ∈ (m.completion.complete name).1 := by
      simp only [OmniComplete.complete]
      rw [(arraySort_perm _).mem_iff, List.mem_filter]
      exact ⟨hx, hpx⟩
    generalize (m.completion.complete name).1 = r at hmw hmx
    match r, hmw, hmx with
    | [], h, _ => simp at h
    | [only], h1, h2 =>
      simp only [List.mem_singleton] at h1 h2
      exact absurd (h1.trans h2.symm) hne
    | _ :: _ :: _, _, _ => rfl

theorem mem_foldl_setAdd (ws : List JSString) : ∀ (acc : List JSString) (w : JSString),
    w ∈ ws.foldl setAdd acc ↔ w ∈ acc ∨ w ∈ ws := by
  induction ws with
  | nil => intro acc w; simp
  | cons x xs ih =>
    intro acc w
    rw [List.foldl_cons, ih]
    unfold setAdd
    split_ifs with hx
    · constructor
      · rintro (h | h)
        · exact Or.inl h
        · exact Or.inr (List.mem_cons_of_mem _ h)
      · rintro (h | h)
        · exact Or.inl h
        · rcases List.mem_cons.1 h with rfl | h
          · exact Or.inl hx
          · exact Or.inr h
    · simp only [List.mem_append, List.mem_singleton, List.mem_cons]
      tauto

theorem defineOwn_keys (o : JSObject) (key v : JSString) :
    (o.defineOwn key v).map Prod.fst
      = if key ∈ o.map Prod.fst then o.map Prod.fst else o.map Prod.fst ++ [key] := by
  induction o with
  | nil => simp [JSObject.defineOwn]
  | cons p rest ih =>
    obtain ⟨k, w⟩ := p
    by_cases h : k = key
    · subst h; simp [JSObject.defineOwn]
    · have h2 : ¬ key = k := fun e => h e.symm
      simp only [JSObject.defineOwn, h, if_false, List.map_cons, ih, List.mem_cons, h2,
        false_or]
      split_ifs <;> simp

theorem spread_keys_nodup (src : Option JSObject) :
    ((JSObject.spread src).map Prod.fst).Nodup := by
  unfold JSObject.spread
  generalize src.getD [] = l
  have key : ∀ (l acc : JSObject), (acc.map Prod.fst).Nodup →
      ((l.foldl (fun o p => JSObject.defineOwn o p.1 p.2) acc).map Prod.fst).Nodup := by
    intro l
    induction l with
    | nil => intro acc h; exact h
    | cons p rest ih =>
      intro acc h
      rw [List.foldl_cons]
      apply ih
      rw [defineOwn_keys]
      split_ifs with hmem
      · exact h
      · exact List.Nodup.append h (List.nodup_singleton _) (by simpa using hmem)
  exact key l [] List.nodup_nil

theorem keys_perm (o : JSObject) : (JSObject.keys o).Perm (o.map Prod.fst) := by
  unfold JSObject.keys
  refine ((List.perm_insertionSort _ _).append_right _).trans ?_
  exact List.filter_append_perm _ _

/-- Every table built by `macroSystem` followed by `addMacro` calls has an
index without duplicates. -/
theorem indexConsistent_reachable (initialMacros : Option JSObject)
    (adds : List (JSString × JSString)) :
    (adds.foldl (fun m p => m.addMacro p.1 p.2) (macroSystem initialMacros)).IndexConsistent := by
  have hinit : (macroSystem initialMacros).IndexConsistent := by
    refine ⟨?_, ?_⟩
    · exact (keys_perm _).nodup_iff.2 (spread_keys_nodup initialMacros)
    · intro w
      simp [macroSystem, omniComplete, newSet, mem_foldl_setAdd]
  have hstep : ∀ (m : MacroSystem) (name expansion : JSString),
      m.IndexConsistent → (m.addMacro name expansion).IndexConsistent := by
    intro m name expansion ⟨hnd, hmem⟩
    unfold MacroSystem.IndexConsistent MacroSystem.addMacro OmniComplete.addWord
    by_cases hw : name ∈ m.completion.wordSet
    · simp only [hw, if_true]
      exact ⟨hnd, hmem⟩
    · have hw2 : name ∉ m.completion.words := fun h => hw ((hmem name).2 h)
      simp only [hw, if_false, OmniComplete.notify, setAdd]
      refine ⟨List.Nodup.append hnd (List.nodup_singleton _) (by simpa using hw2), ?_⟩
      intro w
      simp [hmem w]
  generalize macroSystem initialMacros = m0 at hinit
  induction adds generalizing m0 with
  | nil => exact hinit
  | cons p rest ih =>
    rw [List.foldl_cons]
    exact ih _ (hstep m0 p.1 p.2 hinit)

/-! ## Where the code departs from its specification -/

/-- C2: a text without the trigger character is not always returned
unchanged.  The expression `/[\w\/]+/g` also matches a plain word, and
`substring(1)` then drops its first letter: with the table of
`translatorMode`, `replaceText("ten")` looks up `en` and returns `"[en]"`,
and `replaceText("up")` resolves `p` to `peko` and returns `"pekora"`. -/
theorem replaceText_rewrites_plain_word :
    slash ∉ js "ten" ∧
    matchAll (js "ten") = [(0, js "ten")] ∧
    (macroSystem (some sessionMacros)).replaceText v8Text (js "ten") = js "[en]" ∧
    (macroSystem (some sessionMacros)).replaceText v8Text (js "ten") ≠ js "ten" ∧
    slash ∉ js "up" ∧
    (macroSystem (some sessionMacros)).replaceText v8Text (js "up") = js "pekora" := by
  decide

/-- C3: a name that is not a stored macro name, and that no stored macro
name starts with, does not always give `null`: `macros[name]` also reads
the properties every object inherits, so `getMacro("toString")` returns the
built-in function, and `replaceText` then pastes its source text. -/
theorem getMacro_returns_inherited_property :
    ((macroSystem none).addMacro (js "peko") (js "pekora")).macros.hasOwn (js "toString")
      = false ∧
    (((macroSystem none).addMacro (js "peko") (js "pekora")).completion.complete
      (js "toString")).1 = [] ∧
    ((macroSystem none).addMacro (js "peko") (js "pekora")).getMacro (js "toString")
      = .inherited (js "toString") ∧
    ((macroSystem none).addMacro (js "peko") (js "pekora")).getMacro (js "toString")
      ≠ .null ∧
    ((macroSystem none).addMacro (js "peko") (js "pekora")).replaceText v8Text
      (js "/toString") = js "function toString() { [native code] }" := by
  decide

/-- C4: after `addMacro(name, expansion)`, `getMacro(name)` is not always
that expansion.  An empty expansion is falsy, so the exact match is passed
over and the completions of the name decide: with another stored name
starting with it the result is `null`.  (Also, the assignment to
`__proto__` is ignored, and `getMacro("__proto__")` returns the prototype
object.) -/
theorem getMacro_misses_empty_expansion :
    (((macroSystem none).addMacro (js "ab") (js "x")).addMacro (js "a") (js "")).macros.get
      (js "a") = .str (js "") ∧
    (((macroSystem none).addMacro (js "ab") (js "x")).addMacro (js "a") (js "")).getMacro
      (js "a") = .null ∧
    (((macroSystem none).addMacro (js "ab") (js "x")).addMacro (js "a") (js "")).getMacro
      (js "a") ≠ .str (js "") ∧
    ((macroSystem none).addMacro (js "__proto__") (js "x")).getMacro (js "__proto__")
      = .inherited (js "__proto__") := by
  decide

/-- C7: `completeEnd` does not always insert the replacement text
literally: `String.prototype.replace` expands `$` references in it, so
`completeEnd("pay /usd", "US$$")` is `"pay US$"` and
`completeEnd("x /ab", "<$1$&>")` is `"x <ab/ab>"`, while `replaceText` pastes
the same expansion as it is. -/
theorem completeEnd_expands_dollar_references :
    MacroSystem.completeEnd (js "pay /usd") (js "US$$") = js "pay US$" ∧
    MacroSystem.completeEnd (js "pay /usd") (js "US$$") ≠ js "pay US$$" ∧
    MacroSystem.completeEnd (js "x /ab") (js "<$1$&>") = js "x <ab/ab>" ∧
    (macroSystem (some [(js "usd", js "US$$")])).replaceText v8Text (js "pay /usd")
      = js "pay US$$" := by
  decide

/-- C9: `replaceText` is not idempotent on an output without trigger
tokens.  With the macro `a -> "xa "`, `replaceText("/a")` is `"xa "`, which
holds no `/`; the second pass matches the plain word `xa`, looks up `a` and
returns `"xa  "`. -/
theorem replaceText_second_pass_differs :
    (macroSystem (some [(js "a", js "xa ")])).replaceText v8Text (js "/a") = js "xa " ∧
    slash ∉ js "xa " ∧
    (macroSystem (some [(js "a", js "xa ")])).replaceText v8Text (js "xa ") = js "xa  " ∧
    (macroSystem (some [(js "a", js "xa ")])).replaceText v8Text
        ((macroSystem (some [(js "a", js "xa ")])).replaceText v8Text (js "/a"))
      ≠ (macroSystem (some [(js "a", js "xa ")])).replaceText v8Text (js "/a") := by
  decide

/-! ## The examples of the specification -/

/-- The worked examples of the specification that the code reproduces. -/
theorem specification_examples :
    (macroSystem (some [(js "peko", js "pekora")])).replaceText v8Text (js "hello /peko world")
      = js "hello pekora world" ∧
    (macroSystem (some [(js "peko", js "pekora")])).replaceText v8Text
      (js "hello /unknown world") = js "hello /unknown world" ∧
    ((macroSystem none).addMacro (js "peko") (js "pekora")).getMacro (js "pek")
      = .str (js "pekora") ∧
    (((macroSystem none).addMacro (js "peko") (js "pekora")).addMacro (js "pekora2")
      (js "x")).getMacro (js "pek") = .null ∧
    MacroSystem.completeEnd (js "typing /pek") (js "pekora") = js "typing pekora" ∧
    MacroSystem.completeEnd (js "typing pek") (js "pekora") = js "typing pek" ∧
    ((omniComplete (some [js "b", js "ab", js "a", js "c"])).complete (js "")).1
      = [js "a", js "ab", js "b", js "c"] := by
  decide

/-- The numbered references of a replacement text, as `GetSubstitution`
resolves them for an expression with one group. -/
theorem numbered_reference_examples :
    MacroSystem.completeEnd (js "x /ab") (js "<$1|$&|$01|$10|$2|$00>")
      = js "x <ab|/ab|ab|ab0|$2|$00>" := by
  decide

end LiveTL
